import Mathlib

/-
Verification of the command-execution and result-formatting layer of the
cargo-mcp server (src/cargo.ts together with the tool handlers of
src/index.ts), shallowly embedded in Lean.

The subprocess machinery of Node is modelled by an explicit list of the
events the spawned child delivers (stdout data chunks, stderr data chunks,
an error event, and the close event carrying the exit status); the handler
registrations of runCargoCommand are replayed over that list.  The
environment and the filesystem visible to findCargoExecutable are modelled
by a record holding the CARGO_PATH variable, the home directory and the
existsSync predicate.
-/

namespace CargoMcp

/-- A command result: captured standard output, captured standard error and
the exit code (interface CommandResult of cargo.ts).  The exit code is an
integer (JS number restricted to integral values). -/
structure CommandResult where
  stdout : String
  stderr : String
  exitCode : Int
deriving DecidableEq, Repr

/-- The environment and filesystem state that findCargoExecutable reads:
the CARGO_PATH environment variable (none when unset), the home directory
returned by os.homedir(), and filesystem existence (fs.existsSync). -/
structure SysEnv where
  cargoPath : Option String
  homedir : String
  existsSync : String → Bool

/-- JS truthiness of a string: the empty string is falsy, every other
string is truthy. -/
def strTruthy (s : String) : Bool := s ≠ ""

/-- JS truthiness of an integral number: 0 is falsy. -/
def numTruthy (n : Int) : Bool := n ≠ 0

/-- The fixed list of conventional cargo installation locations scanned by
findCargoExecutable (path.join abstracted as slash-separated
concatenation, as on POSIX; the two literal Windows paths are kept
verbatim). -/
def commonLocations (home : String) : List String :=
  [ home ++ "/.cargo/bin/cargo",
    home ++ "/.rustup/toolchains/stable-x86_64-apple-darwin/bin/cargo",
    home ++ "/.rustup/toolchains/stable-x86_64-unknown-linux-gnu/bin/cargo",
    home ++ "/.rustup/toolchains/stable-x86_64-pc-windows-msvc/bin/cargo.exe",
    "/usr/local/bin/cargo",
    "/usr/bin/cargo",
    "C:\\Program Files\\Rust\\bin\\cargo.exe",
    "C:\\Rust\\bin\\cargo.exe" ]

/-- The for-loop of findCargoExecutable over the candidate locations:
first entry that exists on disk, none when none exists. -/
def firstExisting (ex : String → Bool) : List String → Option String
  | [] => none
  | l :: ls => if ex l then some l else firstExisting ex ls

/-- The part of findCargoExecutable after the CARGO_PATH check: scan the
common locations and fall back to the bare name "cargo". -/
def searchCommonLocations (env : SysEnv) : String :=
  match firstExisting env.existsSync (commonLocations env.homedir) with
  | some l => l
  | none => "cargo"

/-- findCargoExecutable of cargo.ts: if CARGO_PATH is truthy and the path
it names exists, return it; otherwise the first existing common location;
otherwise the bare name "cargo". -/
def findCargoExecutable (env : SysEnv) : String :=
  match env.cargoPath with
  | some p => if strTruthy p && env.existsSync p then p else searchCommonLocations env
  | none => searchCommonLocations env

/-- The events a spawned child process delivers, in order: a data chunk on
stdout, a data chunk on stderr, an error event (e.g. launch failure;
runCargoCommand registers no handler for it), or the close event with the
exit status (none models a null status, e.g. signal termination). -/
inductive ProcEvent where
  | out (data : String)
  | err (data : String)
  | error (msg : String)
  | close (code : Option Int)
deriving DecidableEq, Repr

/-- The exit-code expression of the close handler, `exitCode || 0`:
a null status and a falsy 0 both yield 0, a truthy integer yields itself. -/
def normalizeExitCode : Option Int → Int
  | none => 0
  | some n => if numTruthy n then n else 0

/-- The promise body of runCargoCommand replayed over the child's event
sequence: the stdout and stderr data handlers append each chunk to their
respective buffer, the close handler resolves the promise with the
accumulated buffers and the normalized exit code; error events have no
registered handler and leave the promise untouched.  The result none means
the promise never settles. -/
def runEvents : List ProcEvent → String → String → Option CommandResult
  | [], _, _ => none
  | ProcEvent.out d :: rest, so, se => runEvents rest (so ++ d) se
  | ProcEvent.err d :: rest, so, se => runEvents rest so (se ++ d)
  | ProcEvent.error _ :: rest, so, se => runEvents rest so se
  | ProcEvent.close c :: _, so, se => some ⟨so, se, normalizeExitCode c⟩

/-- The arguments runCargoCommand hands to spawn: executable, argument
vector and working directory. -/
structure SpawnCall where
  executable : String
  argv : List String
  cwd : String
deriving DecidableEq, Repr

/-- runCargoCommand of cargo.ts: builds fullArgs = [command, ...args],
resolves the executable with findCargoExecutable, spawns it in the given
directory, and accumulates the child's events into the promised
CommandResult.  The child's behaviour is abstracted as its event list. -/
def runCargoCommand (env : SysEnv) (command : String) (args : List String)
    (path : String) (events : List ProcEvent) : SpawnCall × Option CommandResult :=
  let fullArgs := command :: args
  let cargoPath := findCargoExecutable env
  (⟨cargoPath, fullArgs, path⟩, runEvents events "" "")

/-- The argument construction of the add tool handler in index.ts:
args = [...dependencies]; if (dev) args.unshift('--dev'). -/
def addToolArgs (dependencies : List String) (dev : Bool) : List String :=
  if dev then "--dev" :: dependencies else dependencies

/-- formatCommandResult of cargo.ts: labeled STDOUT block when stdout is
truthy, labeled STDERR block when stderr is truthy, then the exit-code
line. -/
def formatCommandResult (result : CommandResult) : String :=
  let output : String := ""
  let output := if strTruthy result.stdout then output ++ ("STDOUT:\n" ++ result.stdout ++ "\n") else output
  let output := if strTruthy result.stderr then output ++ ("STDERR:\n" ++ result.stderr ++ "\n") else output
  output ++ ("Exit code: " ++ toString result.exitCode)

/-- The layout stated by the spec, written from the spec's words: if
standard output is non-empty, emit a labeled block containing it; if
standard error is non-empty, emit a labeled block containing it; always
emit a trailing line stating the exit code. -/
def formatLayoutSpec (r : CommandResult) : String :=
  (if r.stdout = "" then "" else "STDOUT:\n" ++ r.stdout ++ "\n") ++
  ((if r.stderr = "" then "" else "STDERR:\n" ++ r.stderr ++ "\n") ++
   ("Exit code: " ++ toString r.exitCode))

/-- The stdout data chunks the child delivers before its first close
event, in arrival order. -/
def outChunks : List ProcEvent → List String
  | [] => []
  | ProcEvent.out d :: rest => d :: outChunks rest
  | ProcEvent.close _ :: _ => []
  | _ :: rest => outChunks rest

/-- The stderr data chunks the child delivers before its first close
event, in arrival order. -/
def errChunks : List ProcEvent → List String
  | [] => []
  | ProcEvent.err d :: rest => d :: errChunks rest
  | ProcEvent.close _ :: _ => []
  | _ :: rest => errChunks rest

/-- Concatenation of a chunk list in order. -/
def concatChunks : List String → String
  | [] => ""
  | c :: cs => c ++ concatChunks cs

/-- The exit status carried by the first close event, when one occurs. -/
def firstClose : List ProcEvent → Option (Option Int)
  | [] => none
  | ProcEvent.close c :: _ => some c
  | _ :: rest => firstClose rest

/-- Whether an event list contains no close event. -/
def noClose : List ProcEvent → Bool
  | [] => true
  | ProcEvent.close _ :: _ => false
  | _ :: rest => noClose rest

/-- The exit-code line the formatter appends: "Exit code: " followed by
the rendered integer. -/
def exitLine (n : Int) : String := "Exit code: " ++ toString n

/-- Prepend a character to the first line of a line list. -/
def consHead (c : Char) : List (List Char) → List (List Char)
  | [] => [[c]]
  | l :: ls => (c :: l) :: ls

/-- Split a character list into its lines at newline characters; the
result is always non-empty and a trailing newline yields a final empty
line. -/
def splitLines : List Char → List (List Char)
  | [] => [[]]
  | c :: cs => if c = '\n' then [] :: splitLines cs else consHead c (splitLines cs)

/-- Number of lines of the formatted output that are exactly the result's
own exit-code line. -/
def countExitLines (r : CommandResult) : Nat :=
  ((splitLines (formatCommandResult r).data).filter
    (fun l => l == (exitLine r.exitCode).data)).length

/-- Merge two line lists across a concatenation point: the last line of
the first fuses with the first line of the second. -/
def joinLast : List (List Char) → List (List Char) → List (List Char)
  | [], ys => ys
  | [x], [] => [x]
  | [x], y :: ys => (x ++ y) :: ys
  | x :: y :: xs, ys => x :: joinLast (y :: xs) ys

/-- The block portion of the formatted output, before the exit-code
line: the optional STDOUT block followed by the optional STDERR block. -/
def blocksPart (r : CommandResult) : String :=
  (if r.stdout = "" then "" else "STDOUT:\n" ++ r.stdout ++ "\n") ++
  (if r.stderr = "" then "" else "STDERR:\n" ++ r.stderr ++ "\n")

/-! ### Helper lemmas -/

theorem normalizeExitCode_some (n : Int) : normalizeExitCode (some n) = n := by
  unfold normalizeExitCode numTruthy
  by_cases h : n = 0 <;> simp [h]

theorem runEvents_exit (events : List ProcEvent) : ∀ so se r,
    runEvents events so se = some r →
    ∃ c, firstClose events = some c ∧ r.exitCode = normalizeExitCode c := by
  induction events with
  | nil => intro so se r h; simp [runEvents] at h
  | cons e rest ih =>
    intro so se r h
    cases e with
    | out d => simpa [runEvents, firstClose] using ih (so ++ d) se r h
    | err d => simpa [runEvents, firstClose] using ih so (se ++ d) r h
    | error m => simpa [runEvents, firstClose] using ih so se r h
    | close c =>
      simp [runEvents] at h
      exact ⟨c, by simp [firstClose], by rw [← h]⟩

theorem runEvents_concat (events : List ProcEvent) : ∀ so se r,
    runEvents events so se = some r →
    r.stdout = so ++ concatChunks (outChunks events) ∧
    r.stderr = se ++ concatChunks (errChunks events) := by
  induction events with
  | nil => intro so se r h; simp [runEvents] at h
  | cons e rest ih =>
    intro so se r h
    cases e with
    | out d =>
      obtain ⟨h1, h2⟩ := ih (so ++ d) se r h
      exact ⟨by rw [h1]; simp [outChunks, concatChunks, String.append_assoc],
             by rw [h2]; simp [errChunks]⟩
    | err d =>
      obtain ⟨h1, h2⟩ := ih so (se ++ d) r h
      exact ⟨by rw [h1]; simp [outChunks],
             by rw [h2]; simp [errChunks, concatChunks, String.append_assoc]⟩
    | error m =>
      obtain ⟨h1, h2⟩ := ih so se r h
      exact ⟨by rw [h1]; simp [outChunks], by rw [h2]; simp [errChunks]⟩
    | close c =>
      simp [runEvents] at h
      rw [← h]
      simp [outChunks, errChunks, concatChunks]

theorem runEvents_close_resolves (c : Option Int) : ∀ pre : List ProcEvent,
    noClose pre = true → ∀ so se,
    ∃ r, runEvents (pre ++ [ProcEvent.close c]) so se = some r ∧
      r.exitCode = normalizeExitCode c := by
  intro pre
  induction pre with
  | nil => intro _ so se; exact ⟨⟨so, se, normalizeExitCode c⟩, rfl, rfl⟩
  | cons e rest ih =>
    intro hp so se
    cases e with
    | out d => exact ih (by simpa [noClose] using hp) (so ++ d) se
    | err d => exact ih (by simpa [noClose] using hp) so (se ++ d)
    | error m => exact ih (by simpa [noClose] using hp) so se
    | close c0 => simp [noClose] at hp

theorem runEvents_isSome (events : List ProcEvent) : ∀ so se,
    (runEvents events so se).isSome = (firstClose events).isSome := by
  induction events with
  | nil => intro so se; rfl
  | cons e rest ih =>
    intro so se
    cases e with
    | out d => simpa [runEvents, firstClose] using ih (so ++ d) se
    | err d => simpa [runEvents, firstClose] using ih so (se ++ d)
    | error m => simpa [runEvents, firstClose] using ih so se
    | close c => rfl

theorem firstExisting_mem (ex : String → Bool) : ∀ (ls : List String) (l : String),
    firstExisting ex ls = some l → l ∈ ls := by
  intro ls
  induction ls with
  | nil => intro l h; simp [firstExisting] at h
  | cons x xs ih =>
    intro l h
    by_cases hx : ex x = true
    · simp [firstExisting, hx] at h
      simp [h]
    · simp [firstExisting, hx] at h
      exact List.mem_cons_of_mem x (ih l h)

theorem searchCommonLocations_cases (env : SysEnv) :
    searchCommonLocations env = "cargo" ∨
    searchCommonLocations env ∈ commonLocations env.homedir := by
  unfold searchCommonLocations
  cases h : firstExisting env.existsSync (commonLocations env.homedir) with
  | none => left; rfl
  | some l => right; simpa using firstExisting_mem env.existsSync _ l h

theorem format_eq_layout (r : CommandResult) :
    formatCommandResult r = formatLayoutSpec r := by
  unfold formatCommandResult formatLayoutSpec strTruthy
  by_cases h1 : r.stdout = "" <;> by_cases h2 : r.stderr = "" <;>
    simp [h1, h2, String.append_assoc]

theorem getLast?_cons_ne {α : Type} (x : α) (l : List α) (hl : l ≠ []) :
    (x :: l).getLast? = l.getLast? := by
  cases l with
  | nil => exact absurd rfl hl
  | cons y ys => exact List.getLast?_cons_cons

theorem joinLast_ne_nil (a b : List (List Char)) (hb : b ≠ []) :
    joinLast a b ≠ [] := by
  match a, b with
  | [], b => simpa [joinLast] using hb
  | [x], [] => simp [joinLast]
  | [x], y :: ys => simp [joinLast]
  | x :: y :: xs, b => simp [joinLast]

theorem splitLines_ne_nil : ∀ cs : List Char, splitLines cs ≠ []
  | [] => by simp [splitLines]
  | c :: cs => by
    simp only [splitLines]
    split
    · simp
    · cases h : splitLines cs <;> simp [consHead]

theorem splitLines_cons_nl (cs : List Char) :
    splitLines ('\n' :: cs) = [] :: splitLines cs := by
  simp [splitLines]

theorem splitLines_cons_other (c : Char) (cs : List Char) (hc : ¬(c = '\n')) :
    splitLines (c :: cs) = consHead c (splitLines cs) := by
  simp [splitLines, hc]

theorem splitLines_append (xs ys : List Char) :
    splitLines (xs ++ ys) = joinLast (splitLines xs) (splitLines ys) := by
  induction xs with
  | nil =>
    cases h : splitLines ys with
    | nil => exact absurd h (splitLines_ne_nil ys)
    | cons l ls => simp [splitLines, joinLast, h]
  | cons c cs ih =>
    by_cases hc : c = '\n'
    · subst hc
      rw [List.cons_append, splitLines_cons_nl, splitLines_cons_nl, ih]
      cases h : splitLines cs with
      | nil => exact absurd h (splitLines_ne_nil cs)
      | cons l ls => rfl
    · rw [List.cons_append, splitLines_cons_other c _ hc,
        splitLines_cons_other c _ hc, ih]
      cases hcs : splitLines cs with
      | nil => exact absurd hcs (splitLines_ne_nil cs)
      | cons l ls =>
        cases ls with
        | nil =>
          cases hys : splitLines ys with
          | nil => exact absurd hys (splitLines_ne_nil ys)
          | cons b bs => simp [joinLast, consHead]
        | cons l2 ls2 => simp [joinLast, consHead]

theorem splitLines_no_nl (cs : List Char) (h : '\n' ∉ cs) :
    splitLines cs = [cs] := by
  induction cs with
  | nil => rfl
  | cons c cs ih =>
    have hc : ¬(c = '\n') := by
      intro hh
      exact h (by simp [hh])
    have hcs : '\n' ∉ cs := fun hh => h (List.mem_cons_of_mem _ hh)
    simp only [splitLines]
    rw [if_neg hc, ih hcs]
    rfl

theorem getLast?_joinLast_single (a : List (List Char)) (e : List Char)
    (ha : a ≠ []) :
    (joinLast a [e]).getLast? = a.getLast?.map (fun l => l ++ e) := by
  induction a with
  | nil => exact absurd rfl ha
  | cons x xs ih =>
    cases xs with
    | nil => simp [joinLast]
    | cons y ys =>
      rw [show joinLast (x :: y :: ys) [e] = x :: joinLast (y :: ys) [e] from rfl]
      rw [getLast?_cons_ne _ _ (joinLast_ne_nil _ _ (by simp))]
      rw [ih (by simp)]
      rw [List.getLast?_cons_cons]

theorem getLast?_joinLast_pair (a : List (List Char)) (b1 b2 : List Char)
    (bs : List (List Char)) (ha : a ≠ []) :
    (joinLast a (b1 :: b2 :: bs)).getLast? = (b1 :: b2 :: bs).getLast? := by
  induction a with
  | nil => exact absurd rfl ha
  | cons x xs ih =>
    cases xs with
    | nil =>
      rw [show joinLast [x] (b1 :: b2 :: bs) = (x ++ b1) :: b2 :: bs from rfl]
      rw [List.getLast?_cons_cons, List.getLast?_cons_cons]
    | cons y ys =>
      rw [show joinLast (x :: y :: ys) (b1 :: b2 :: bs) =
            x :: joinLast (y :: ys) (b1 :: b2 :: bs) from rfl]
      rw [getLast?_cons_ne _ _ (joinLast_ne_nil _ _ (by simp))]
      exact ih (by simp)

theorem prefix_last_empty (P : String) (h : P = "" ∨ ∃ Q, P = Q ++ "\n") :
    (splitLines P.data).getLast? = some [] := by
  rcases h with h | ⟨Q, h⟩
  · rw [h]; rfl
  · rw [h, String.data_append, splitLines_append]
    rw [show splitLines ("\n".data) = [[], []] from rfl]
    rw [getLast?_joinLast_pair _ _ _ _ (splitLines_ne_nil _)]
    rfl

theorem digitChar_big (n : Nat) : Nat.digitChar (n + 16) = '*' := by
  unfold Nat.digitChar
  repeat rw [if_neg (by omega)]

theorem digitChar_ne_nl (m : Nat) : Nat.digitChar m ≠ '\n' := by
  match m with
  | 0 => decide
  | 1 => decide
  | 2 => decide
  | 3 => decide
  | 4 => decide
  | 5 => decide
  | 6 => decide
  | 7 => decide
  | 8 => decide
  | 9 => decide
  | 10 => decide
  | 11 => decide
  | 12 => decide
  | 13 => decide
  | 14 => decide
  | 15 => decide
  | n + 16 => rw [digitChar_big]; decide

theorem toDigitsCore_ne_nl (b : Nat) : ∀ (fuel n : Nat) (ds : List Char),
    (∀ c ∈ ds, c ≠ '\n') → ∀ c ∈ Nat.toDigitsCore b fuel n ds, c ≠ '\n' := by
  intro fuel
  induction fuel with
  | zero =>
    intro n ds hds c hc
    exact hds c (by simpa [Nat.toDigitsCore] using hc)
  | succ fuel ih =>
    intro n ds hds c hc
    simp only [Nat.toDigitsCore] at hc
    split at hc
    · rcases List.mem_cons.mp hc with h | h
      · rw [h]; exact digitChar_ne_nl _
      · exact hds c h
    · refine ih (n / b) (Nat.digitChar (n % b) :: ds) ?_ c hc
      intro x hx
      rcases List.mem_cons.mp hx with h | h
      · rw [h]; exact digitChar_ne_nl _
      · exact hds x h

theorem natRepr_no_nl (n : Nat) : '\n' ∉ (Nat.repr n).data := by
  intro h
  exact toDigitsCore_ne_nl 10 (n + 1) n [] (by intro c hc; cases hc) '\n'
    (by simpa [Nat.repr, Nat.toDigits, List.asString] using h) rfl

theorem intToString_no_nl (n : Int) : '\n' ∉ (toString n).data := by
  cases n with
  | ofNat m =>
    rw [show toString (Int.ofNat m) = Nat.repr m from rfl]
    exact natRepr_no_nl m
  | negSucc m =>
    rw [show toString (Int.negSucc m) = "-" ++ Nat.repr (m + 1) from rfl]
    intro h
    rw [String.data_append] at h
    rcases List.mem_append.mp h with h | h
    · exact absurd h (by decide)
    · exact natRepr_no_nl _ h

theorem exitLine_no_nl (n : Int) : '\n' ∉ (exitLine n).data := by
  unfold exitLine
  rw [String.data_append]
  intro h
  rcases List.mem_append.mp h with h | h
  · exact absurd h (by decide)
  · exact intToString_no_nl n h

theorem format_blocks_exit (r : CommandResult) :
    formatCommandResult r = blocksPart r ++ exitLine r.exitCode := by
  rw [format_eq_layout]
  unfold formatLayoutSpec blocksPart exitLine
  exact (String.append_assoc _ _ _).symm

theorem blocksPart_empty_or_nl (r : CommandResult) :
    blocksPart r = "" ∨ ∃ Q, blocksPart r = Q ++ "\n" := by
  unfold blocksPart
  by_cases h2 : r.stderr = ""
  · by_cases h1 : r.stdout = ""
    · left; simp [h1, h2]
    · right
      refine ⟨"STDOUT:\n" ++ r.stdout, ?_⟩
      simp [h1, h2, String.append_assoc]
  · right
    refine ⟨(if r.stdout = "" then "" else "STDOUT:\n" ++ r.stdout ++ "\n") ++
      ("STDERR:\n" ++ r.stderr), ?_⟩
    simp [h2, String.append_assoc]

/-! ### Claims -/

/-- C1: every delivered CommandResult has a defined integer exit code:
a null close status is normalized to zero, and an integer status n is
reported as n. -/
theorem exitCode_always_defined (events : List ProcEvent) (r : CommandResult)
    (h : runEvents events "" "" = some r) :
    ∃ c, firstClose events = some c ∧
      (c = none → r.exitCode = 0) ∧ (∀ n, c = some n → r.exitCode = n) := by
  obtain ⟨c, hc, he⟩ := runEvents_exit events "" "" r h
  refine ⟨c, hc, ?_, ?_⟩
  · intro h0; rw [he, h0]; rfl
  · intro n hn; rw [he, hn, normalizeExitCode_some]

theorem exitCode_always_defined_witness :
    ∃ c, firstClose [ProcEvent.close none] = some c ∧
      ((c = none → (⟨"", "", 0⟩ : CommandResult).exitCode = 0) ∧
       (∀ n, c = some n → (⟨"", "", 0⟩ : CommandResult).exitCode = n)) := by
  obtain ⟨c, hc, h0, hn⟩ := exitCode_always_defined [ProcEvent.close none] ⟨"", "", 0⟩ rfl
  exact ⟨c, hc, h0, hn⟩

/-- C2: resolution order of findCargoExecutable — a set CARGO_PATH naming
an existing path wins verbatim; otherwise the first existing conventional
location; otherwise the bare name "cargo".  The hypothesis that the empty
path never exists reflects fs.existsSync on every real filesystem. -/
theorem findCargoExecutable_resolution_order (env : SysEnv)
    (hempty : env.existsSync "" = false) :
    (∀ p, env.cargoPath = some p → env.existsSync p = true →
      findCargoExecutable env = p) ∧
    ((∀ p, env.cargoPath = some p → env.existsSync p = false) →
      ∀ l, firstExisting env.existsSync (commonLocations env.homedir) = some l →
        findCargoExecutable env = l) ∧
    ((∀ p, env.cargoPath = some p → env.existsSync p = false) →
      firstExisting env.existsSync (commonLocations env.homedir) = none →
        findCargoExecutable env = "cargo") := by
  refine ⟨?_, ?_, ?_⟩
  · intro p hp hex
    have hpne : p ≠ "" := by
      intro hcontra
      rw [hcontra, hempty] at hex
      exact Bool.false_ne_true hex
    simp [findCargoExecutable, hp, strTruthy, hpne, hex]
  · intro hfail l hl
    cases hcp : env.cargoPath with
    | none => simp [findCargoExecutable, hcp, searchCommonLocations, hl]
    | some p =>
      simp [findCargoExecutable, hcp, hfail p hcp, searchCommonLocations, hl]
  · intro hfail hnone
    cases hcp : env.cargoPath with
    | none => simp [findCargoExecutable, hcp, searchCommonLocations, hnone]
    | some p =>
      simp [findCargoExecutable, hcp, hfail p hcp, searchCommonLocations, hnone]

theorem findCargoExecutable_resolution_order_witness :
    findCargoExecutable ⟨some "/opt/cargo", "/home/u", fun s => s == "/opt/cargo"⟩ =
      "/opt/cargo" :=
  (findCargoExecutable_resolution_order
      ⟨some "/opt/cargo", "/home/u", fun s => s == "/opt/cargo"⟩ (by decide)).1
    "/opt/cargo" rfl (by decide)

/-- C3: runCargoCommand spawns the resolved executable with argument
vector [command, ...args] in the given working directory; the add tool
with dev=true passes exactly add, --dev, then the dependencies in
order. -/
theorem runCargoCommand_argv (env : SysEnv) (command : String)
    (args : List String) (path : String) (events : List ProcEvent) :
    (runCargoCommand env command args path events).1 =
      ⟨findCargoExecutable env, command :: args, path⟩ ∧
    ∀ deps path2 events2,
      (runCargoCommand env "add" (addToolArgs deps true) path2 events2).1.argv =
        "add" :: "--dev" :: deps := by
  constructor
  · rfl
  · intro deps path2 events2
    simp [runCargoCommand, addToolArgs]

/-- C4: the formatter emits the labeled STDOUT block iff stdout is
non-empty and the labeled STDERR block iff stderr is non-empty — it
coincides with the spec's layout function, whose blocks are guarded by
exactly those emptiness tests. -/
theorem formatCommandResult_blocks_iff (r : CommandResult) :
    formatCommandResult r = formatLayoutSpec r :=
  format_eq_layout r

/-- C6: the captured stdout buffer is the concatenation of the stdout
chunks in arrival order, the stderr buffer that of the stderr chunks, and
the two streams accumulate independently. -/
theorem stream_accumulation (events : List ProcEvent) (r : CommandResult)
    (h : runEvents events "" "" = some r) :
    r.stdout = concatChunks (outChunks events) ∧
    r.stderr = concatChunks (errChunks events) := by
  have hc := runEvents_concat events "" "" r h
  simpa using hc

theorem stream_accumulation_witness :
    (⟨"ab", "x", 3⟩ : CommandResult).stdout =
      concatChunks (outChunks [ProcEvent.out "a", ProcEvent.err "x",
        ProcEvent.out "b", ProcEvent.close (some 3)]) ∧
    (⟨"ab", "x", 3⟩ : CommandResult).stderr =
      concatChunks (errChunks [ProcEvent.out "a", ProcEvent.err "x",
        ProcEvent.out "b", ProcEvent.close (some 3)]) :=
  stream_accumulation
    [ProcEvent.out "a", ProcEvent.err "x", ProcEvent.out "b",
     ProcEvent.close (some 3)] ⟨"ab", "x", 3⟩ (by decide)

/-- C7: whatever exit status the close event carries — zero, nonzero or
null — the outcome is delivered through the same resolution path as a
CommandResult; no distinct error path exists for a nonzero code. -/
theorem nonzero_exit_not_error (pre : List ProcEvent)
    (hp : noClose pre = true) (c : Option Int) :
    ∃ r : CommandResult, runEvents (pre ++ [ProcEvent.close c]) "" "" = some r ∧
      r.exitCode = normalizeExitCode c :=
  runEvents_close_resolves c pre hp "" ""

theorem nonzero_exit_not_error_witness :
    ∃ r : CommandResult,
      runEvents ([ProcEvent.err "warning"] ++ [ProcEvent.close (some 101)]) "" "" =
        some r ∧ r.exitCode = normalizeExitCode (some 101) :=
  nonzero_exit_not_error [ProcEvent.err "warning"] rfl (some 101)

/-- C8: findCargoExecutable is total — for every environment and
filesystem it returns a string, which is the override path, one of the
conventional locations, or the bare name "cargo". -/
theorem findCargoExecutable_total (env : SysEnv) :
    findCargoExecutable env = "cargo" ∨
    findCargoExecutable env ∈ commonLocations env.homedir ∨
    env.cargoPath = some (findCargoExecutable env) := by
  cases hcp : env.cargoPath with
  | none =>
    rcases searchCommonLocations_cases env with h | h
    · left; simp only [findCargoExecutable, hcp]; exact h
    · right; left; simp only [findCargoExecutable, hcp]; exact h
  | some p =>
    by_cases hc : (strTruthy p && env.existsSync p) = true
    · right; right
      simp [findCargoExecutable, hcp, hc]
    · have hc' : (strTruthy p && env.existsSync p) = false := by
        simpa using hc
      rcases searchCommonLocations_cases env with h | h
      · left; simp only [findCargoExecutable, hcp, hc', if_false]; exact h
      · right; left; simp only [findCargoExecutable, hcp, hc', if_false]; exact h

/-- C9: the promise settles exactly when a close event occurs (it is
resolve-only, never rejected in the model), and an error event — for
which no handler is registered — neither settles the promise nor alters
the captured state. -/
theorem promise_resolve_only (events : List ProcEvent) (so se : String) :
    (runEvents events so se).isSome = (firstClose events).isSome ∧
    ∀ msg rest, runEvents (ProcEvent.error msg :: rest) so se =
      runEvents rest so se := by
  exact ⟨runEvents_isSome events so se, fun msg rest => rfl⟩

/-- C10: when both captured streams are empty the formatted output is
exactly the exit-code line, with no block headers, no leading text and no
trailing newline. -/
theorem format_empty_streams (n : Int) :
    formatCommandResult ⟨"", "", n⟩ = "Exit code: " ++ toString n := by
  simp [formatCommandResult, strTruthy]

/-- Claim C5 as stated is false: when the captured stdout itself contains
the exit-code label, the formatted output holds more than one exit-code
line — here the result with stdout "Exit code: 0" and exit code 0 yields
two such lines. -/
theorem exit_line_not_unique_cex :
    countExitLines ⟨"Exit code: 0", "", 0⟩ ≠ 1 := by decide

/-- C5 (amended): the formatted output always ends with the exit-code
line — the final line of the output is "Exit code: " followed by the
rendered exit code, and at least one such line is present; since stream
text is passed through raw, stdout or stderr containing exit-code-shaped
lines can make the total count exceed one. -/
theorem exit_line_last (r : CommandResult) :
    (splitLines (formatCommandResult r).data).getLast? =
      some (exitLine r.exitCode).data ∧
    1 ≤ countExitLines r := by
  have hdec := format_blocks_exit r
  have hlastP : (splitLines (blocksPart r).data).getLast? = some [] :=
    prefix_last_empty _ (blocksPart_empty_or_nl r)
  have hE : splitLines (exitLine r.exitCode).data = [(exitLine r.exitCode).data] :=
    splitLines_no_nl _ (exitLine_no_nl r.exitCode)
  have h1 : (splitLines (formatCommandResult r).data).getLast? =
      some (exitLine r.exitCode).data := by
    rw [hdec, String.data_append, splitLines_append, hE]
    rw [getLast?_joinLast_single _ _ (splitLines_ne_nil _), hlastP]
    simp
  refine ⟨h1, ?_⟩
  have hmem : (exitLine r.exitCode).data ∈ splitLines (formatCommandResult r).data :=
    List.mem_of_getLast?_eq_some h1
  have hmemf : (exitLine r.exitCode).data ∈
      (splitLines (formatCommandResult r).data).filter
        (fun l => l == (exitLine r.exitCode).data) :=
    List.mem_filter.mpr ⟨hmem, by simp⟩
  unfold countExitLines
  exact List.length_pos_of_mem hmemf

end CargoMcp
